import Mathlib

/-!
Verification development for an image-stitching web service (`server.py`).

The pipeline under scrutiny: an upload filter on file extensions, an image
loader that silently drops undecodable paths, a panorama stitching step
delegated to an external collaborator, a border cropper (Otsu threshold,
5x5 morphological closing, external contours, largest-area bounding
rectangle, sub-image slice), and a 404-guarded retrieval route.

Modelling conventions:
* images are lists of rows of BGR pixel triples (natural numbers);
* the external collaborators `cv2.imread` and `cv2.Stitcher.stitch` are
  function parameters (the code only observes their results);
* the OpenCV primitives used by the cropper are modelled concretely:
  grayscale conversion with OpenCV's fixed-point coefficients, Otsu's
  threshold with the between-class-variance comparison carried out in
  exact integer arithmetic, dilation/erosion as window max/min with
  out-of-bounds pixels ignored (OpenCV's default border handling), and
  `findContours(RETR_EXTERNAL)` as one outer contour per 8-connected
  component of the non-zero mask, a contour being modelled by the pixel
  set of its component (same bounding rectangle; the area functional is
  only ever used through maximum selection);
* Python strings are modelled as `String` / lists of characters, the
  filesystem of stored outputs as a lookup function.
-/

namespace ImageStitch

/-- A pixel in BGR channel order, as produced by `cv2.imread`. -/
abbrev Pix := Nat × Nat × Nat

/-- A decoded raster image: a list of pixel rows. -/
structure Img where
  rows : List (List Pix)
deriving DecidableEq

/-- Number of pixel rows. -/
def Img.height (img : Img) : Nat := img.rows.length

/-- Length of the first row (numpy shape for a rectangular array). -/
def Img.width (img : Img) : Nat := (img.rows.headD []).length

/-- Rectangularity: every row has the width of the first one. -/
def Img.wf (img : Img) : Bool := img.rows.all fun r => decide (r.length = img.width)

/-- Pixel access `img[y][x]`, out-of-range reads giving a default. -/
def pxAt (img : Img) (y x : Nat) : Pix := (img.rows.getD y []).getD x (0, 0, 0)

/-- Cell access in a single-channel image. -/
def mAt (m : List (List Nat)) (y x : Nat) : Nat := (m.getD y []).getD x 0

/-- Modelled collaborator: `cv2.cvtColor(..., COLOR_BGR2GRAY)`, OpenCV's
fixed-point formula `(1868*B + 9617*G + 4899*R + 8192) >> 14`. -/
def toGray (img : Img) : List (List Nat) :=
  img.rows.map (List.map fun p => (1868 * p.1 + 9617 * p.2.1 + 4899 * p.2.2 + 8192) / 16384)

/-- 256-bin histogram of a single-channel image. -/
def histOf (g : List (List Nat)) : List Nat :=
  (List.range 256).map fun v => (g.map fun row => row.count v).sum

/-- The bin scan of Otsu's threshold selection (OpenCV's
`getThreshVal_Otsu_8u`): walk the histogram bins accumulating the lower
class's pixel count `c1` and weight `s1`, skip bins whose lower or upper
class is empty, and keep the first bin strictly maximising the
between-class variance
`q1*q2*(mu1 - mu2)^2 = (s1*N - S*c1)^2 / (N^2 * c1 * (N - c1))`;
the variance comparison is carried out in exact integer arithmetic after
clearing the (positive) denominators, as the pair `best = (num, den, bin)`. -/
def otsuGo (N S : Nat) : List Nat → Nat → Nat → Nat → Nat × Nat × Nat → Nat × Nat × Nat
  | [], _, _, _, best => best
  | h :: t, i, c1, s1, best =>
    let c1n := c1 + h
    let s1n := s1 + i * h
    if c1n = 0 ∨ c1n = N then otsuGo N S t (i + 1) c1n s1n best
    else
      let d := Nat.dist (s1n * N) (S * c1n)
      if best.1 * (c1n * (N - c1n)) < d * d * best.2.1 then
        otsuGo N S t (i + 1) c1n s1n (d * d, c1n * (N - c1n), i)
      else otsuGo N S t (i + 1) c1n s1n best

/-- Modelled collaborator: threshold selection of `cv2.threshold(..., THRESH_OTSU)`:
run the bin scan over the 256-bin histogram with the total pixel count `N`
and total weight `S`. -/
def otsuThresh (hist : List Nat) : Nat :=
  (otsuGo hist.sum (((List.range 256).map fun i => i * hist.getD i 0).sum)
    hist 0 0 0 (0, 1, 0)).2.2

/-- Modelled collaborator: the binarisation of `cv2.threshold(..., THRESH_BINARY)`:
pixels strictly above the threshold become 255, the rest 0. -/
def threshBin (t : Nat) (g : List (List Nat)) : List (List Nat) :=
  g.map (List.map fun v => if t < v then 255 else 0)

/-- Fold of `Nat.max` over a list with a starting value. -/
def listMax (a : Nat) (l : List Nat) : Nat := l.foldl Nat.max a

/-- Fold of `Nat.min` over a list with a starting value. -/
def listMin (a : Nat) (l : List Nat) : Nat := l.foldl Nat.min a

/-- A pixel coordinate `(y, x)`. -/
abbrev Pt := Nat × Nat

/-- The in-bounds part of the 5x5 window centred at `(y, x)`. -/
def winPts (H W y x : Nat) : List Pt :=
  ((List.range H).filter fun ty => decide (Nat.dist ty y ≤ 2)).flatMap fun ty =>
    ((List.range W).filter fun tx => decide (Nat.dist tx x ≤ 2)).map fun tx => (ty, tx)

/-- Modelled collaborator: `cv2.dilate` with the all-ones 5x5 kernel
(`np.ones((5, 5))`): window maximum, out-of-bounds pixels ignored. -/
def dilate (m : List (List Nat)) : List (List Nat) :=
  let H := m.length
  let W := (m.headD []).length
  (List.range H).map fun y => (List.range W).map fun x =>
    listMax 0 ((winPts H W y x).map fun p => mAt m p.1 p.2)

/-- Modelled collaborator: `cv2.erode` with the all-ones 5x5 kernel:
window minimum, out-of-bounds pixels ignored. -/
def erode (m : List (List Nat)) : List (List Nat) :=
  let H := m.length
  let W := (m.headD []).length
  (List.range H).map fun y => (List.range W).map fun x =>
    listMin (mAt m y x) ((winPts H W y x).map fun p => mAt m p.1 p.2)

/-- Modelled collaborator: `cv2.morphologyEx(..., MORPH_CLOSE, kernel)`:
dilation followed by erosion. -/
def morphClose (m : List (List Nat)) : List (List Nat) := erode (dilate m)

/-- Coordinates of the non-zero cells of a mask, in raster order. -/
def cells (m : List (List Nat)) : List Pt :=
  let H := m.length
  let W := (m.headD []).length
  (List.range H).flatMap fun y =>
    ((List.range W).filter fun x => decide (mAt m y x ≠ 0)).map fun x => (y, x)

/-- 8-neighbourhood adjacency of two distinct coordinates. -/
def adj8 (p q : Pt) : Bool :=
  decide (p ≠ q) && decide (Nat.dist p.1 q.1 ≤ 1) && decide (Nat.dist p.2 q.2 ≤ 1)

/-- One step of region growing: adjoin every cell adjacent to the current set. -/
def grow (cs : List Pt) (s : List Pt) : List Pt :=
  s ++ cs.filter fun q => decide (q ∉ s) && s.any fun p => adj8 p q

/-- Iterated region growing. -/
def growN (cs : List Pt) : Nat → List Pt → List Pt
  | 0, s => s
  | n + 1, s => growN cs n (grow cs s)

/-- The 8-connected component of `seed` among the cells `cs`. -/
def compOf (cs : List Pt) (seed : Pt) : List Pt := growN cs cs.length [seed]

/-- Scan the cells in raster order, emitting the component of each cell not
already covered by an earlier component. -/
def componentsGo (cs : List Pt) : List Pt → List (List Pt) → List (List Pt)
  | [], acc => acc
  | c :: rest, acc =>
    if acc.any fun comp => decide (c ∈ comp) then componentsGo cs rest acc
    else componentsGo cs rest (acc ++ [compOf cs c])

/-- The 8-connected components of a set of cells. -/
def components (cs : List Pt) : List (List Pt) := componentsGo cs cs []

/-- Modelled collaborator: `cv2.findContours(..., RETR_EXTERNAL, CHAIN_APPROX_SIMPLE)`:
one outer contour per 8-connected component of the non-zero mask, each contour
modelled by the full pixel set of its component. -/
def findContours (m : List (List Nat)) : List (List Pt) := components (cells m)

/-- Modelled collaborator: `cv2.contourArea`, the area enclosed by a contour,
modelled as the pixel area of its component; the code observes it only through
maximum selection. -/
def contourArea (c : List Pt) : Nat := c.length

/-- Python's `max(contours, key=cv2.contourArea)`: left fold keeping the
current maximum, replacing it only on a strictly larger key. -/
def maxByArea : List (List Pt) → List Pt
  | [] => []
  | c :: rest => rest.foldl (fun best d => if contourArea best < contourArea d then d else best) c

/-- An axis-aligned rectangle `(x, y, w, h)` as returned by `cv2.boundingRect`. -/
structure Rect where
  x : Nat
  y : Nat
  w : Nat
  h : Nat
deriving DecidableEq

/-- Modelled collaborator: `cv2.boundingRect`, the minimal axis-aligned
rectangle containing the contour points (OpenCV width is `max - min + 1`). -/
def boundingRect : List Pt → Rect
  | [] => ⟨0, 0, 0, 0⟩
  | p :: ps =>
    let x := listMin p.2 (ps.map Prod.snd)
    let y := listMin p.1 (ps.map Prod.fst)
    let xM := listMax p.2 (ps.map Prod.snd)
    let yM := listMax p.1 (ps.map Prod.fst)
    ⟨x, y, xM + 1 - x, yM + 1 - y⟩

/-- The numpy slice `panorama[y:y+h, x:x+w]` (indices clip, as in Python). -/
def subImg (img : Img) (r : Rect) : Img :=
  ⟨((img.rows.drop r.y).take r.h).map fun row => (row.drop r.x).take r.w⟩

/-- The binary mask the cropper builds from a panorama: grayscale, Otsu
binarisation, then 5x5 morphological closing (`server.py` lines 33-36). -/
def maskOf (panorama : Img) : List (List Nat) :=
  let gray := toGray panorama
  morphClose (threshBin (otsuThresh (histOf gray)) gray)

/-- `crop_panorama` (`server.py` lines 32-43): if the mask has no contours
return the input unchanged, otherwise slice out the bounding rectangle of
the largest-area contour. -/
def crop_panorama (panorama : Img) : Img :=
  let contours := findContours (maskOf panorama)
  if contours = [] then panorama
  else subImg panorama (boundingRect (maxByArea contours))

/-- The image loader (`server.py` line 22): Python's
`[cv2.imread(p) for p in image_paths if cv2.imread(p) is not None]`,
with `cv2.imread` as an abstract decode function. -/
def loadImages (imread : String → Option Img) (image_paths : List String) : List Img :=
  (image_paths.filter fun path => (imread path).isSome).filterMap imread

/-- `cv2.Stitcher_OK`. -/
def STITCHER_OK : Int := 0

/-- `stitch_images` (`server.py` lines 21-29): load, require at least two
images, invoke the stitching collaborator, propagate its failure code, and
crop the composed result.  The first component of the returned pair is the
image, the second the error message; `cv2.Stitcher.stitch` is an abstract
function returning a status and a buffer. -/
def stitch_images (imread : String → Option Img) (stitcher : List Img → Int × Img)
    (image_paths : List String) : Option Img × Option String :=
  let images := loadImages imread image_paths
  if images.length < 2 then (none, some "Need at least two images to stitch")
  else
    let status := (stitcher images).1
    let stitched := (stitcher images).2
    if status ≠ STITCHER_OK then
      (none, some ("Stitching failed! Error code: " ++ toString status))
    else (some (crop_panorama stitched), none)

/-- `ALLOWED_EXTENSIONS` (`server.py` line 15). -/
def ALLOWED_EXTENSIONS : List (List Char) :=
  [['p', 'n', 'g'], ['j', 'p', 'g'], ['j', 'p', 'e', 'g'], ['b', 'm', 'p']]

/-- The characters after the last `'.'` of a filename: Python's
`filename.rsplit('.', 1)[1]` when a dot is present. -/
def extAfterLastDot (l : List Char) : List Char :=
  (l.reverse.takeWhile fun c => decide (c ≠ '.')).reverse

/-- `allowed_file` (`server.py` lines 17-18):
`'.' in filename and filename.rsplit('.', 1)[1].lower() in ALLOWED_EXTENSIONS`. -/
def allowed_file (filename : String) : Bool :=
  decide ('.' ∈ filename.toList) &&
    decide ((extAfterLastDot filename.toList).map Char.toLower ∈ ALLOWED_EXTENSIONS)

/-- `get_stitched_image` (`server.py` lines 110-116): the outputs directory is
modelled as a lookup from filename to stored bytes; an existing file is served,
a missing one answered with a 404 body. -/
def get_stitched_image (outputs : String → Option (List Nat)) (filename : String) :
    Except (String × Nat) (List Nat) :=
  match outputs filename with
  | some bytes => Except.ok bytes
  | none => Except.error ("No stitched image available", 404)

/-- A uniform BGR pixel of intensity `v`. -/
def pix (v : Nat) : Pix := (v, v, v)

/-- A 2x2 image of uniform intensity 7. -/
def imgU7 : Img := ⟨[[pix 7, pix 7], [pix 7, pix 7]]⟩

/-- A 2x2 all-black image. -/
def imgBlack : Img := ⟨[[pix 0, pix 0], [pix 0, pix 0]]⟩

/-- A 5x10 image: left half intensity 1 (non-zero), right half intensity 255. -/
def imgBimodal : Img :=
  ⟨List.replicate 5 (List.replicate 5 (pix 1) ++ List.replicate 5 (pix 255))⟩

/-- No pixel of the image is the zero (black) pixel. -/
def fullyNonZero (img : Img) : Bool :=
  img.rows.all (List.all · fun p => decide (p ≠ (0, 0, 0)))

/-- Every position of the image grid is foreground in the cropper's mask. -/
def maskAllOn (img : Img) : Prop :=
  ∀ y < img.height, ∀ x < img.width, mAt (maskOf img) y x ≠ 0

instance (img : Img) : Decidable (maskAllOn img) := by
  unfold maskAllOn; infer_instance

/-- A decode collaborator that fails on every path. -/
def imreadNone : String → Option Img := fun _ => none

/-- A decode collaborator that succeeds on every path. -/
def imreadU7 : String → Option Img := fun _ => some imgU7

/-- A stitching collaborator that always succeeds. -/
def stitcherOk : List Img → Int × Img := fun _ => (STITCHER_OK, imgU7)

/-- A stitching collaborator that always fails with code 1. -/
def stitcherFail1 : List Img → Int × Img := fun _ => (1, imgU7)

/-- The single contour the cropper finds on `imgBimodal`: the pixel set of
its right (bright) half, in the discovery order of the region growth. -/
def contourBimodal : List Pt :=
  [(0, 5), (0, 6), (1, 5), (1, 6), (0, 7), (1, 7), (2, 5), (2, 6), (2, 7), (0, 8),
   (1, 8), (2, 8), (3, 5), (3, 6), (3, 7), (3, 8), (0, 9), (1, 9), (2, 9), (3, 9),
   (4, 5), (4, 6), (4, 7), (4, 8), (4, 9)]

/-- A 5x5 image of uniform intensity 255. -/
def imgWhite5 : Img := ⟨List.replicate 5 (List.replicate 5 (pix 255))⟩

/-- The grayscale of `imgBimodal`. -/
def grayBimodal : List (List Nat) :=
  List.replicate 5 (List.replicate 5 1 ++ List.replicate 5 255)

/-- The histogram of `grayBimodal`: 25 pixels at intensity 1, 25 at 255. -/
def histBimodal : List Nat := ((List.replicate 256 0).set 1 25).set 255 25

/-- The thresholded (and closed) mask of `imgBimodal`: its bright half. -/
def maskBimodal : List (List Nat) :=
  List.replicate 5 (List.replicate 5 0 ++ List.replicate 5 255)

/-- One coordinate step from `a` towards `t` (proof helper for the
connectivity of a full grid under 8-adjacency). -/
def stepToward (t a : Nat) : Nat :=
  if a < t then a + 1 else if t < a then a - 1 else a

set_option maxRecDepth 4000

/-! ### The orchestrator: loading and stitching -/

/-- A `filterMap` over the elements kept by the corresponding `isSome` filter
is the plain `filterMap`: the double `cv2.imread` call of the loader's list
comprehension collapses to one decode per path. -/
theorem filterMap_filter_isSome {α β : Type} (f : α → Option β) (l : List α) :
    (l.filter fun a => (f a).isSome).filterMap f = l.filterMap f := by
  induction l with
  | nil => rfl
  | cons a l ih =>
    cases h : f a with
    | none => simp [List.filter_cons, List.filterMap_cons, h, ih]
    | some b => simp [List.filter_cons, List.filterMap_cons, h, ih]

/-- A `filterMap` whose function succeeds on every element keeps the length. -/
theorem length_filterMap_of_isSome {α β : Type} (f : α → Option β) (l : List α)
    (h : ∀ a ∈ l, (f a).isSome) : (l.filterMap f).length = l.length := by
  induction l with
  | nil => rfl
  | cons a l ih =>
    cases ha : f a with
    | none => exact absurd (h a (List.mem_cons_self a l)) (by simp [ha])
    | some b =>
      simp only [List.filterMap_cons, ha, List.length_cons]
      exact congrArg Nat.succ (ih fun a ha => h a (List.mem_cons_of_mem _ ha))

/-- C8: the loader returns exactly the buffers of the successfully decoding
paths, in input order — `List.filterMap` of the decode function — and one
buffer per decodable path; undecodable paths are dropped without any error
(the loader is a total function). -/
theorem loadImages_eq_filterMap (imread : String → Option Img) (paths : List String) :
    loadImages imread paths = paths.filterMap imread ∧
    (loadImages imread paths).length =
      (paths.filter fun p => (imread p).isSome).length := by
  constructor
  · exact filterMap_filter_isSome imread paths
  · exact length_filterMap_of_isSome imread _ fun a ha => (List.mem_filter.mp ha).2

/-- C1: with fewer than two decodable images, `stitch_images` returns the
insufficient-images error, and its result does not depend on the stitching
collaborator (the collaborator is never consulted). -/
theorem stitch_images_insufficient (imread : String → Option Img)
    (st₁ st₂ : List Img → Int × Img) (paths : List String)
    (h : (loadImages imread paths).length < 2) :
    stitch_images imread st₁ paths = (none, some "Need at least two images to stitch") ∧
    stitch_images imread st₁ paths = stitch_images imread st₂ paths := by
  unfold stitch_images
  simp only [if_pos h]
  exact ⟨trivial, trivial⟩

/-- Witness for C1: no path decodes, so both collaborators are bypassed. -/
theorem stitch_images_insufficient_witness :
    stitch_images imreadNone stitcherOk ["a", "b"] =
      (none, some "Need at least two images to stitch") ∧
    stitch_images imreadNone stitcherOk ["a", "b"] =
      stitch_images imreadNone stitcherFail1 ["a", "b"] :=
  stitch_images_insufficient imreadNone stitcherOk stitcherFail1 ["a", "b"] (by decide)

/-- C6: if the stitching collaborator reports a non-OK status, the pipeline
fails with no image, and the error message contains the status code verbatim
(the message decomposes around the rendered code). -/
theorem stitch_images_failure_code (imread : String → Option Img)
    (stitcher : List Img → Int × Img) (paths : List String)
    (hlen : ¬ (loadImages imread paths).length < 2)
    (hc : (stitcher (loadImages imread paths)).1 ≠ STITCHER_OK) :
    stitch_images imread stitcher paths =
      (none, some ("Stitching failed! Error code: " ++
        toString (stitcher (loadImages imread paths)).1)) ∧
    ∃ pre suf : List Char,
      ("Stitching failed! Error code: " ++
          toString (stitcher (loadImages imread paths)).1).toList =
        pre ++ (toString (stitcher (loadImages imread paths)).1).toList ++ suf := by
  refine ⟨?_, "Stitching failed! Error code: ".toList, [], ?_⟩
  · unfold stitch_images
    simp only [if_neg hlen, if_pos hc]
  · simp [String.toList]

/-- Witness for C6: two decodable paths, collaborator fails with code 1. -/
theorem stitch_images_failure_code_witness :
    stitch_images imreadU7 stitcherFail1 ["a", "b"] =
      (none, some ("Stitching failed! Error code: " ++
        toString (stitcherFail1 (loadImages imreadU7 ["a", "b"])).1)) ∧
    ∃ pre suf : List Char,
      ("Stitching failed! Error code: " ++
          toString (stitcherFail1 (loadImages imreadU7 ["a", "b"])).1).toList =
        pre ++ (toString (stitcherFail1 (loadImages imreadU7 ["a", "b"])).1).toList ++ suf :=
  stitch_images_failure_code imreadU7 stitcherFail1 ["a", "b"] (by decide) (by decide)

/-- C7: the result of `stitch_images` always has exactly one component set:
an image and no error, or an error and no image. -/
theorem stitch_images_tagged (imread : String → Option Img)
    (stitcher : List Img → Int × Img) (paths : List String) :
    ((stitch_images imread stitcher paths).1.isSome = true ∧
      (stitch_images imread stitcher paths).2 = none) ∨
    ((stitch_images imread stitcher paths).1 = none ∧
      (stitch_images imread stitcher paths).2.isSome = true) := by
  unfold stitch_images
  by_cases h : (loadImages imread paths).length < 2
  · simp only [if_pos h]
    right
    exact ⟨trivial, rfl⟩
  · simp only [if_neg h]
    by_cases hc : (stitcher (loadImages imread paths)).1 ≠ STITCHER_OK
    · simp only [if_pos hc]
      right
      exact ⟨trivial, rfl⟩
    · simp only [if_neg hc]
      left
      exact ⟨rfl, trivial⟩

/-- C9: retrieval answers the stored bytes for an existing artifact and the
distinguished not-found result (HTTP 404) otherwise. -/
theorem get_stitched_image_spec (outputs : String → Option (List Nat)) (filename : String) :
    (∃ bytes, outputs filename = some bytes ∧
      get_stitched_image outputs filename = Except.ok bytes) ∨
    (outputs filename = none ∧
      get_stitched_image outputs filename =
        Except.error ("No stitched image available", 404)) := by
  cases h : outputs filename with
  | some b => exact Or.inl ⟨b, rfl, by unfold get_stitched_image; rw [h]⟩
  | none => exact Or.inr ⟨rfl, by unfold get_stitched_image; rw [h]⟩

/-! ### The upload filter -/

/-- `takeWhile` swallows a block of satisfying elements up to the first
failing one. -/
theorem takeWhile_append_block (p : Char → Bool) (xs ys : List Char) (y : Char)
    (hxs : ∀ x ∈ xs, p x = true) (hy : p y = false) :
    (xs ++ y :: ys).takeWhile p = xs := by
  induction xs with
  | nil =>
    rw [List.nil_append, List.takeWhile_cons, hy]
    simp
  | cons x xs ih =>
    have hx := hxs x (List.mem_cons_self x xs)
    rw [List.cons_append, List.takeWhile_cons, hx]
    simp only [if_pos rfl]
    exact congrArg (x :: ·) (ih fun a ha => hxs a (List.mem_cons_of_mem _ ha))

/-- A list containing a dot splits as its dot-free prefix, a first dot,
and a remainder. -/
theorem first_dot_decomp (r : List Char) (h : '.' ∈ r) :
    ∃ d, r = (r.takeWhile fun c => decide (c ≠ '.')) ++ '.' :: d ∧
      ∀ c ∈ (r.takeWhile fun c => decide (c ≠ '.')), c ≠ '.' := by
  induction r with
  | nil => cases h
  | cons c r ih =>
    by_cases hc : c = '.'
    · subst hc
      refine ⟨r, ?_, ?_⟩
      · rw [List.takeWhile_cons]
        simp
      · rw [List.takeWhile_cons]
        simp
    · have hmem : '.' ∈ r := by
        cases List.mem_cons.mp h with
        | inl h0 => exact absurd h0.symm hc
        | inr h0 => exact h0
      obtain ⟨d, hd, hfree⟩ := ih hmem
      have hdec : decide (c ≠ '.') = true := decide_eq_true hc
      refine ⟨d, ?_, ?_⟩
      · rw [List.takeWhile_cons, hdec, if_pos rfl, List.cons_append]
        exact congrArg (c :: ·) hd
      · intro a ha
        rw [List.takeWhile_cons, hdec, if_pos rfl] at ha
        cases List.mem_cons.mp ha with
        | inl h0 => exact h0 ▸ hc
        | inr h0 => exact hfree a h0

/-- A filename containing a dot splits as a stem, a last dot, and the
dot-free extension computed by `extAfterLastDot`. -/
theorem extAfterLastDot_decomp (l : List Char) (h : '.' ∈ l) :
    ∃ stem, l = stem ++ '.' :: extAfterLastDot l ∧ '.' ∉ extAfterLastDot l := by
  obtain ⟨d, hd, hfree⟩ := first_dot_decomp l.reverse (List.mem_reverse.mpr h)
  refine ⟨d.reverse, ?_, ?_⟩
  · conv_lhs => rw [← List.reverse_reverse l, hd]
    rw [List.reverse_append, List.reverse_cons, List.append_assoc,
      List.singleton_append]
    rfl
  · intro hmem
    exact hfree '.' (List.mem_reverse.mp hmem) rfl

/-- `extAfterLastDot` recovers the extension of any stem-dot-extension
decomposition with a dot-free extension. -/
theorem extAfterLastDot_of_decomp (stem ext : List Char) (hfree : '.' ∉ ext) :
    extAfterLastDot (stem ++ '.' :: ext) = ext ∧ '.' ∈ stem ++ '.' :: ext := by
  constructor
  · unfold extAfterLastDot
    have hrev : (stem ++ '.' :: ext).reverse = ext.reverse ++ '.' :: stem.reverse := by
      rw [List.reverse_append, List.reverse_cons, List.append_assoc,
        List.singleton_append]
    have hblock := takeWhile_append_block (fun c => decide (c ≠ '.')) ext.reverse
      stem.reverse '.'
      (fun x hx => decide_eq_true fun he : x = '.' => hfree (he ▸ List.mem_reverse.mp hx))
      (by simp)
    rw [hrev, hblock, List.reverse_reverse]
  · exact List.mem_append.mpr (Or.inr (List.mem_cons_self _ _))

/-- C10: the upload filter accepts a filename exactly when it has a dot and
the substring after the last dot, lowercased, is one of png, jpg, jpeg, bmp. -/
theorem allowed_file_iff (fn : String) :
    allowed_file fn = true ↔
      ∃ stem ext : List Char, fn.toList = stem ++ '.' :: ext ∧ '.' ∉ ext ∧
        ext.map Char.toLower ∈ ALLOWED_EXTENSIONS := by
  unfold allowed_file
  rw [Bool.and_eq_true, decide_eq_true_eq, decide_eq_true_eq]
  constructor
  · rintro ⟨hdot, hmem⟩
    obtain ⟨stem, hst, hfree⟩ := extAfterLastDot_decomp fn.toList hdot
    exact ⟨stem, extAfterLastDot fn.toList, hst, hfree, hmem⟩
  · rintro ⟨stem, ext, heq, hfree, hmem⟩
    obtain ⟨hext, hdot⟩ := extAfterLastDot_of_decomp stem ext hfree
    rw [heq]
    exact ⟨hdot, by rw [hext]; exact hmem⟩


/-! ### The border cropper: generic lemmas -/

/-- A `let`-free unfolding of the cropper's mask computation. -/
theorem maskOf_def (img : Img) :
    maskOf img =
      morphClose (threshBin (otsuThresh (histOf (toGray img))) (toGray img)) := rfl

/-- C4: with no contours detected, the cropper returns its input unchanged. -/
theorem crop_identity_no_contours (img : Img)
    (h : findContours (maskOf img) = []) : crop_panorama img = img := by
  unfold crop_panorama
  rw [if_pos h]

/-- The cropper's mask of the all-black test image (threshold 0 leaves an
all-zero mask). -/
theorem contours_imgBlack : findContours (maskOf imgBlack) = [] := by
  rw [maskOf_def]
  rw [show toGray imgBlack = [[0, 0], [0, 0]] from by decide]
  rw [show histOf [[0, 0], [0, 0]] = (List.replicate 256 0).set 0 4 from by decide]
  rw [show otsuThresh ((List.replicate 256 0).set 0 4) = 0 from by decide]
  decide

/-- Witness for C4: the all-black image yields no contours and is returned
byte-for-byte. -/
theorem crop_identity_no_contours_witness :
    findContours (maskOf imgBlack) = [] ∧ crop_panorama imgBlack = imgBlack :=
  ⟨contours_imgBlack, crop_identity_no_contours imgBlack contours_imgBlack⟩

/-- The minimum fold is bounded by its starting value. -/
theorem listMin_le_init (a : Nat) (l : List Nat) : listMin a l ≤ a := by
  induction l generalizing a with
  | nil => exact Nat.le_refl a
  | cons b l ih => exact Nat.le_trans (ih (Nat.min a b)) (Nat.min_le_left a b)

/-- The minimum fold is bounded by every list element. -/
theorem listMin_le_mem (a : Nat) (l : List Nat) (b : Nat) (hb : b ∈ l) :
    listMin a l ≤ b := by
  induction l generalizing a with
  | nil => cases hb
  | cons c l ih =>
    cases List.mem_cons.mp hb with
    | inl h =>
      subst h
      exact Nat.le_trans (listMin_le_init (Nat.min a b) l) (Nat.min_le_right a b)
    | inr h => exact ih (Nat.min a c) h

/-- The minimum fold is the starting value or a list element. -/
theorem listMin_choice (a : Nat) (l : List Nat) :
    listMin a l = a ∨ listMin a l ∈ l := by
  induction l generalizing a with
  | nil => exact Or.inl rfl
  | cons b l ih =>
    cases ih (Nat.min a b) with
    | inl h =>
      cases Nat.le_total a b with
      | inl hab =>
        refine Or.inl ?_
        rw [show listMin a (b :: l) = listMin (Nat.min a b) l from rfl, h]
        exact Nat.min_eq_left hab
      | inr hab =>
        refine Or.inr (List.mem_cons.mpr (Or.inl ?_))
        rw [show listMin a (b :: l) = listMin (Nat.min a b) l from rfl, h]
        exact Nat.min_eq_right hab
    | inr h => exact Or.inr (List.mem_cons.mpr (Or.inr h))

/-- The maximum fold dominates its starting value. -/
theorem le_listMax_init (a : Nat) (l : List Nat) : a ≤ listMax a l := by
  induction l generalizing a with
  | nil => exact Nat.le_refl a
  | cons b l ih => exact Nat.le_trans (Nat.le_max_left a b) (ih (Nat.max a b))

/-- The maximum fold dominates every list element. -/
theorem le_listMax_mem (a : Nat) (l : List Nat) (b : Nat) (hb : b ∈ l) :
    b ≤ listMax a l := by
  induction l generalizing a with
  | nil => cases hb
  | cons c l ih =>
    cases List.mem_cons.mp hb with
    | inl h =>
      subst h
      exact Nat.le_trans (Nat.le_max_right a b) (le_listMax_init (Nat.max a b) l)
    | inr h => exact ih (Nat.max a c) h

/-- The maximum fold is the starting value or a list element. -/
theorem listMax_choice (a : Nat) (l : List Nat) :
    listMax a l = a ∨ listMax a l ∈ l := by
  induction l generalizing a with
  | nil => exact Or.inl rfl
  | cons b l ih =>
    cases ih (Nat.max a b) with
    | inl h =>
      cases Nat.le_total a b with
      | inl hab =>
        refine Or.inr (List.mem_cons.mpr (Or.inl ?_))
        rw [show listMax a (b :: l) = listMax (Nat.max a b) l from rfl, h]
        exact Nat.max_eq_right hab
      | inr hab =>
        refine Or.inl ?_
        rw [show listMax a (b :: l) = listMax (Nat.max a b) l from rfl, h]
        exact Nat.max_eq_left hab
    | inr h => exact Or.inr (List.mem_cons.mpr (Or.inr h))

/-- Every cell of a mask is in range and non-zero. -/
theorem mem_cells {m : List (List Nat)} {p : Pt} (hp : p ∈ cells m) :
    p.1 < m.length ∧ p.2 < (m.headD []).length ∧ mAt m p.1 p.2 ≠ 0 := by
  unfold cells at hp
  simp only [List.mem_flatMap, List.mem_map, List.mem_filter, List.mem_range,
    decide_eq_true_eq] at hp
  obtain ⟨y, hy, x, ⟨hx, h0⟩, hpe⟩ := hp
  subst hpe
  exact ⟨hy, hx, h0⟩

/-- Every in-range non-zero position is a cell of the mask. -/
theorem cells_mem {m : List (List Nat)} {y x : Nat} (hy : y < m.length)
    (hx : x < (m.headD []).length) (h0 : mAt m y x ≠ 0) : (y, x) ∈ cells m := by
  unfold cells
  simp only [List.mem_flatMap, List.mem_map, List.mem_filter, List.mem_range,
    decide_eq_true_eq]
  exact ⟨y, hy, x, ⟨hx, h0⟩, rfl⟩

/-- Growing only adds points. -/
theorem subset_grow (cs s : List Pt) : s ⊆ grow cs s :=
  fun _ hp => List.mem_append_left _ hp

/-- A grown point was already present or is one of the cells. -/
theorem grow_subset (cs s : List Pt) : ∀ p ∈ grow cs s, p ∈ s ∨ p ∈ cs := by
  intro p hp
  cases List.mem_append.mp hp with
  | inl h => exact Or.inl h
  | inr h => exact Or.inr (List.mem_filter.mp h).1

/-- Iterated growing only adds points. -/
theorem subset_growN (cs : List Pt) (n : Nat) (s : List Pt) : s ⊆ growN cs n s := by
  induction n generalizing s with
  | zero => exact fun _ hp => hp
  | succ n ih => exact fun p hp => ih (grow cs s) (subset_grow cs s hp)

/-- A point of the iterated growth was in the start set or is a cell. -/
theorem growN_subset (cs : List Pt) (n : Nat) (s : List Pt) :
    ∀ p ∈ growN cs n s, p ∈ s ∨ p ∈ cs := by
  induction n generalizing s with
  | zero => exact fun p hp => Or.inl hp
  | succ n ih =>
    intro p hp
    cases ih (grow cs s) p hp with
    | inl h => exact grow_subset cs s p h
    | inr h => exact Or.inr h

/-- The seed belongs to its component. -/
theorem seed_mem_compOf (cs : List Pt) (seed : Pt) : seed ∈ compOf cs seed :=
  subset_growN cs cs.length [seed] (List.mem_singleton.mpr rfl)

/-- A component point is the seed or a cell. -/
theorem compOf_subset (cs : List Pt) (seed : Pt) :
    ∀ p ∈ compOf cs seed, p = seed ∨ p ∈ cs := by
  intro p hp
  cases growN_subset cs cs.length [seed] p hp with
  | inl h => exact Or.inl (List.mem_singleton.mp h)
  | inr h => exact Or.inr h

/-- Every emitted component is an accumulator entry or the component of a
pending cell. -/
theorem mem_componentsGo (cs : List Pt) (todo : List Pt) (acc : List (List Pt)) :
    ∀ C ∈ componentsGo cs todo acc, C ∈ acc ∨ ∃ s ∈ todo, C = compOf cs s := by
  induction todo generalizing acc with
  | nil => exact fun C hC => Or.inl hC
  | cons c rest ih =>
    intro C hC
    unfold componentsGo at hC
    by_cases hcond : (acc.any fun comp => decide (c ∈ comp)) = true
    · rw [if_pos hcond] at hC
      cases ih acc C hC with
      | inl h => exact Or.inl h
      | inr h =>
        obtain ⟨s, hs, he⟩ := h
        exact Or.inr ⟨s, List.mem_cons_of_mem _ hs, he⟩
    · rw [if_neg hcond] at hC
      cases ih (acc ++ [compOf cs c]) C hC with
      | inl h =>
        cases List.mem_append.mp h with
        | inl h0 => exact Or.inl h0
        | inr h0 =>
          exact Or.inr ⟨c, List.mem_cons_self c rest, List.mem_singleton.mp h0⟩
      | inr h =>
        obtain ⟨s, hs, he⟩ := h
        exact Or.inr ⟨s, List.mem_cons_of_mem _ hs, he⟩

/-- Every component is the region grown from one of the cells. -/
theorem mem_components (cs : List Pt) :
    ∀ C ∈ components cs, ∃ s ∈ cs, C = compOf cs s := by
  intro C hC
  cases mem_componentsGo cs cs [] C hC with
  | inl h => cases h
  | inr h => exact h

/-- Components consist of cells. -/
theorem components_subset (cs : List Pt) (C : List Pt) (hC : C ∈ components cs) :
    ∀ p ∈ C, p ∈ cs := by
  obtain ⟨s, hs, he⟩ := mem_components cs C hC
  intro p hp
  cases compOf_subset cs s p (he ▸ hp) with
  | inl h => exact h ▸ hs
  | inr h => exact h

/-- Components are non-empty. -/
theorem components_ne_nil (cs : List Pt) (C : List Pt) (hC : C ∈ components cs) :
    C ≠ [] := by
  obtain ⟨s, _, he⟩ := mem_components cs C hC
  intro hnil
  rw [hnil] at he
  exact List.not_mem_nil s (he ▸ seed_mem_compOf cs s)

/-- The first-strict-maximum fold returns its start or a list element. -/
theorem foldl_argmax_choice {α : Type} (f : α → Nat) (l : List α) (b : α) :
    l.foldl (fun best d => if f best < f d then d else best) b = b ∨
      l.foldl (fun best d => if f best < f d then d else best) b ∈ l := by
  induction l generalizing b with
  | nil => exact Or.inl rfl
  | cons c l ih =>
    cases ih (if f b < f c then c else b) with
    | inl h =>
      rw [List.foldl_cons, h]
      by_cases hc : f b < f c
      · rw [if_pos hc]
        exact Or.inr (List.mem_cons_self c l)
      · rw [if_neg hc]
        exact Or.inl rfl
    | inr h => exact Or.inr (List.mem_cons_of_mem c h)

/-- The first-strict-maximum fold dominates its starting key. -/
theorem le_foldl_argmax {α : Type} (f : α → Nat) (l : List α) (b : α) :
    f b ≤ f (l.foldl (fun best d => if f best < f d then d else best) b) := by
  induction l generalizing b with
  | nil => exact Nat.le_refl _
  | cons c l ih =>
    rw [List.foldl_cons]
    by_cases hc : f b < f c
    · rw [if_pos hc]
      exact Nat.le_trans (Nat.le_of_lt hc) (ih c)
    · rw [if_neg hc]
      exact ih b

/-- The first-strict-maximum fold dominates every list element's key. -/
theorem mem_le_foldl_argmax {α : Type} (f : α → Nat) (l : List α) (b : α) :
    ∀ d ∈ l, f d ≤ f (l.foldl (fun best d => if f best < f d then d else best) b) := by
  induction l generalizing b with
  | nil => intro d hd; cases hd
  | cons c l ih =>
    intro d hd
    rw [List.foldl_cons]
    cases List.mem_cons.mp hd with
    | inl h =>
      subst h
      by_cases hc : f b < f d
      · rw [if_pos hc]
        exact le_foldl_argmax f l d
      · rw [if_neg hc]
        exact Nat.le_trans (Nat.le_of_not_lt hc) (le_foldl_argmax f l b)
    | inr h => exact ih _ d h

/-- The selected contour belongs to the (non-empty) contour list. -/
theorem maxByArea_mem (l : List (List Pt)) (h : l ≠ []) : maxByArea l ∈ l := by
  cases l with
  | nil => exact absurd rfl h
  | cons c rest =>
    cases foldl_argmax_choice contourArea rest c with
    | inl h0 =>
      rw [show maxByArea (c :: rest) =
        rest.foldl (fun best d => if contourArea best < contourArea d then d else best) c
        from rfl, h0]
      exact List.mem_cons_self c rest
    | inr h0 =>
      rw [show maxByArea (c :: rest) =
        rest.foldl (fun best d => if contourArea best < contourArea d then d else best) c
        from rfl]
      exact List.mem_cons_of_mem c h0

/-- The selected contour has maximal area among all contours. -/
theorem maxByArea_is_max (l : List (List Pt)) :
    ∀ c ∈ l, contourArea c ≤ contourArea (maxByArea l) := by
  cases l with
  | nil => intro c hc; cases hc
  | cons c0 rest =>
    intro c hc
    rw [show maxByArea (c0 :: rest) =
      rest.foldl (fun best d => if contourArea best < contourArea d then d else best) c0
      from rfl]
    cases List.mem_cons.mp hc with
    | inl h =>
      subst h
      exact le_foldl_argmax contourArea rest c
    | inr h => exact mem_le_foldl_argmax contourArea rest c0 c h

/-- `getD` through `take`, under the taken bound. -/
theorem getD_take {α : Type} (l : List α) (m i : Nat) (d : α) (h : i < m) :
    (l.take m).getD i d = l.getD i d := by
  induction l generalizing m i with
  | nil => rw [List.take_nil]
  | cons a l ih =>
    cases m with
    | zero => cases h
    | succ m =>
      rw [List.take_succ_cons]
      cases i with
      | zero => rfl
      | succ i =>
        rw [List.getD_cons_succ, List.getD_cons_succ]
        exact ih m i (Nat.lt_of_succ_lt_succ h)

/-- `getD` through `drop`. -/
theorem getD_drop {α : Type} (l : List α) (m i : Nat) (d : α) :
    (l.drop m).getD i d = l.getD (m + i) d := by
  induction l generalizing m with
  | nil => rw [List.drop_nil]; rw [List.getD_nil, List.getD_nil]
  | cons a l ih =>
    cases m with
    | zero => rw [List.drop_zero, Nat.zero_add]
    | succ m =>
      rw [List.drop_succ_cons, ih m, Nat.succ_add_eq_add_succ]
      rfl

/-- `getD` through `map`, in bounds. -/
theorem getD_map {α β : Type} (f : α → β) (l : List α) (i : Nat) (d : β) (e : α)
    (h : i < l.length) : (l.map f).getD i d = f (l.getD i e) := by
  induction l generalizing i with
  | nil => cases h
  | cons a l ih =>
    cases i with
    | zero => rfl
    | succ i =>
      rw [List.map_cons, List.getD_cons_succ, List.getD_cons_succ]
      exact ih i (Nat.lt_of_succ_lt_succ h)

/-- An in-bounds `getD` is a list member. -/
theorem getD_mem {α : Type} (l : List α) (i : Nat) (d : α) (h : i < l.length) :
    l.getD i d ∈ l := by
  induction l generalizing i with
  | nil => cases h
  | cons a l ih =>
    cases i with
    | zero => exact List.mem_cons_self a l
    | succ i =>
      rw [List.getD_cons_succ]
      exact List.mem_cons_of_mem a (ih i (Nat.lt_of_succ_lt_succ h))

/-- `headD` is `getD` at index 0. -/
theorem headD_eq_getD {α : Type} (l : List α) (d : α) : l.headD d = l.getD 0 d := by
  cases l <;> rfl

/-- An in-bounds `getD` is the corresponding element. -/
theorem getD_eq_getElem {α : Type} (l : List α) (i : Nat) (d : α)
    (h : i < l.length) : l.getD i d = l[i] := by
  induction l generalizing i with
  | nil => cases h
  | cons a l ih =>
    cases i with
    | zero => rfl
    | succ i =>
      rw [List.getD_cons_succ, List.getElem_cons_succ]
      exact ih i (Nat.lt_of_succ_lt_succ h)

/-- `getD` on `range`, in bounds. -/
theorem getD_range (n i : Nat) (h : i < n) : (List.range n).getD i 0 = i := by
  rw [getD_eq_getElem _ _ _ (by rw [List.length_range]; exact h)]
  exact List.getElem_range _ _

/-- Rows of a well-formed image all have the image's width. -/
theorem wf_row_length (img : Img) (hwf : img.wf = true) (y : Nat)
    (hy : y < img.height) : (img.rows.getD y []).length = img.width := by
  unfold Img.wf at hwf
  have hmem := getD_mem img.rows y [] hy
  exact decide_eq_true_eq.mp (List.all_eq_true.mp hwf _ hmem)

/-- Dilation preserves the number of rows. -/
theorem length_dilate (m : List (List Nat)) : (dilate m).length = m.length := by
  simp [dilate]

/-- Erosion preserves the number of rows. -/
theorem length_erode (m : List (List Nat)) : (erode m).length = m.length := by
  simp [erode]

/-- Binarisation preserves the number of rows. -/
theorem length_threshBin (t : Nat) (m : List (List Nat)) :
    (threshBin t m).length = m.length := by
  simp [threshBin]

/-- Grayscale conversion has one row per image row. -/
theorem length_toGray (img : Img) : (toGray img).length = img.height := by
  simp [toGray, Img.height]

/-- The cropper's mask has one row per image row. -/
theorem maskOf_length (img : Img) : (maskOf img).length = img.height := by
  rw [maskOf_def, morphClose, length_erode, length_dilate, length_threshBin,
    length_toGray]

/-- Dilation preserves the width of the first row. -/
theorem width_dilate (m : List (List Nat)) (h : 0 < m.length) :
    ((dilate m).headD []).length = (m.headD []).length := by
  unfold dilate
  rw [headD_eq_getD, getD_map _ (List.range m.length) 0 [] 0
    (by rw [List.length_range]; exact h)]
  simp

/-- Erosion preserves the width of the first row. -/
theorem width_erode (m : List (List Nat)) (h : 0 < m.length) :
    ((erode m).headD []).length = (m.headD []).length := by
  unfold erode
  rw [headD_eq_getD, getD_map _ (List.range m.length) 0 [] 0
    (by rw [List.length_range]; exact h)]
  simp

/-- Binarisation preserves the width of the first row. -/
theorem width_threshBin (t : Nat) (m : List (List Nat)) :
    ((threshBin t m).headD []).length = (m.headD []).length := by
  cases m <;> simp [threshBin]

/-- Grayscale conversion preserves the image width. -/
theorem width_toGray (img : Img) : ((toGray img).headD []).length = img.width := by
  cases h : img.rows <;> simp [toGray, Img.width, h]

/-- The cropper's mask has the image's width on its first row. -/
theorem maskOf_width (img : Img) (hH : 0 < img.height) :
    ((maskOf img).headD []).length = img.width := by
  rw [maskOf_def, morphClose]
  rw [width_erode _ (by
    rw [length_dilate, length_threshBin, length_toGray]; exact hH)]
  rw [width_dilate _ (by rw [length_threshBin, length_toGray]; exact hH)]
  rw [width_threshBin, width_toGray]

/-- The bounding rectangle of a non-empty in-bounds point list is non-empty
and lies within the bounds. -/
theorem boundingRect_spec (p0 : Pt) (ps : List Pt) (H W : Nat)
    (hbound : ∀ q ∈ p0 :: ps, q.1 < H ∧ q.2 < W) :
    0 < (boundingRect (p0 :: ps)).w ∧ 0 < (boundingRect (p0 :: ps)).h ∧
    (boundingRect (p0 :: ps)).x + (boundingRect (p0 :: ps)).w ≤ W ∧
    (boundingRect (p0 :: ps)).y + (boundingRect (p0 :: ps)).h ≤ H := by
  have hxv : (boundingRect (p0 :: ps)).x = listMin p0.2 (ps.map Prod.snd) := rfl
  have hyv : (boundingRect (p0 :: ps)).y = listMin p0.1 (ps.map Prod.fst) := rfl
  have hwv : (boundingRect (p0 :: ps)).w =
      listMax p0.2 (ps.map Prod.snd) + 1 - listMin p0.2 (ps.map Prod.snd) := rfl
  have hhv : (boundingRect (p0 :: ps)).h =
      listMax p0.1 (ps.map Prod.fst) + 1 - listMin p0.1 (ps.map Prod.fst) := rfl
  have h1 : listMin p0.2 (ps.map Prod.snd) ≤ p0.2 := listMin_le_init _ _
  have h2 : p0.2 ≤ listMax p0.2 (ps.map Prod.snd) := le_listMax_init _ _
  have h3 : listMax p0.2 (ps.map Prod.snd) < W := by
    cases listMax_choice p0.2 (ps.map Prod.snd) with
    | inl h => rw [h]; exact (hbound p0 (List.mem_cons_self p0 ps)).2
    | inr h =>
      obtain ⟨q, hq, he⟩ := List.mem_map.mp h
      rw [← he]
      exact (hbound q (List.mem_cons_of_mem p0 hq)).2
  have h4 : listMin p0.1 (ps.map Prod.fst) ≤ p0.1 := listMin_le_init _ _
  have h5 : p0.1 ≤ listMax p0.1 (ps.map Prod.fst) := le_listMax_init _ _
  have h6 : listMax p0.1 (ps.map Prod.fst) < H := by
    cases listMax_choice p0.1 (ps.map Prod.fst) with
    | inl h => rw [h]; exact (hbound p0 (List.mem_cons_self p0 ps)).1
    | inr h =>
      obtain ⟨q, hq, he⟩ := List.mem_map.mp h
      rw [← he]
      exact (hbound q (List.mem_cons_of_mem p0 hq)).1
  refine ⟨?_, ?_, ?_, ?_⟩
  · rw [hwv]; omega
  · rw [hhv]; omega
  · rw [hxv, hwv]; omega
  · rw [hyv, hhv]; omega

/-- The `i`-th row of a sub-image, in bounds. -/
theorem subImg_rows_getD (img : Img) (r : Rect) (i : Nat) (hi : i < r.h)
    (hy : r.y + r.h ≤ img.height) :
    (subImg img r).rows.getD i [] = ((img.rows.getD (r.y + i) []).drop r.x).take r.w := by
  unfold subImg
  rw [getD_map _ ((img.rows.drop r.y).take r.h) i [] []
    (by
      rw [List.length_take, List.length_drop]
      unfold Img.height at hy
      omega)]
  rw [getD_take _ _ _ _ hi, getD_drop]

/-- A sub-image with an in-bounds rectangle has the rectangle's height. -/
theorem subImg_height (img : Img) (r : Rect) (hy : r.y + r.h ≤ img.height) :
    (subImg img r).height = r.h := by
  unfold subImg Img.height
  rw [List.length_map, List.length_take, List.length_drop]
  unfold Img.height at hy
  exact Nat.min_eq_left (by omega)

/-- Each row of a sub-image of a well-formed image has the rectangle's width. -/
theorem subImg_row_len (img : Img) (hwf : img.wf = true) (r : Rect)
    (hy : r.y + r.h ≤ img.height) (hx : r.x + r.w ≤ img.width) (i : Nat)
    (hi : i < r.h) : ((subImg img r).rows.getD i []).length = r.w := by
  rw [subImg_rows_getD img r i hi hy, List.length_take, List.length_drop]
  rw [wf_row_length img hwf (r.y + i) (by
    unfold Img.height at hy ⊢
    omega)]
  exact Nat.min_eq_left (by omega)

/-- A sub-image with an in-bounds non-degenerate rectangle has the
rectangle's width. -/
theorem subImg_width (img : Img) (hwf : img.wf = true) (r : Rect)
    (hy : r.y + r.h ≤ img.height) (hx : r.x + r.w ≤ img.width) (hh : 0 < r.h) :
    (subImg img r).width = r.w := by
  unfold Img.width
  rw [headD_eq_getD]
  exact subImg_row_len img hwf r hy hx 0 hh

/-- Every pixel of the sub-image is the input pixel at the rectangle's
offset. -/
theorem subImg_px (img : Img) (r : Rect) (i j : Nat) (hi : i < r.h)
    (hj : j < r.w) (hy : r.y + r.h ≤ img.height) :
    pxAt (subImg img r) i j = pxAt img (r.y + i) (r.x + j) := by
  unfold pxAt
  rw [subImg_rows_getD img r i hi hy, getD_take _ _ _ _ hj, getD_drop]

/-- Points of the selected contour lie within the image grid. -/
theorem maxByArea_contour_bound (img : Img) (hc : findContours (maskOf img) ≠ []) :
    ∀ q ∈ maxByArea (findContours (maskOf img)),
      q.1 < img.height ∧ q.2 < img.width := by
  intro q hq
  have hCmem : maxByArea (findContours (maskOf img)) ∈
      components (cells (maskOf img)) := maxByArea_mem _ hc
  have hcell := components_subset _ _ hCmem q hq
  obtain ⟨h1, h2, _⟩ := mem_cells hcell
  have hH : 0 < img.height := by
    rw [← maskOf_length img]
    omega
  constructor
  · rw [← maskOf_length img]
    exact h1
  · rw [← maskOf_width img hH]
    exact h2

/-- C2: when a contour is found, the selected bounding rectangle is
non-degenerate and lies within the image (`0 ≤ x`, `0 ≤ y` hold by the `Nat`
coordinates), and the sliced sub-image has exactly the rectangle's height
and width — the slice is in range and non-empty. -/
theorem crop_rect_within_bounds (img : Img) (hwf : img.wf = true)
    (hc : findContours (maskOf img) ≠ []) :
    0 < (boundingRect (maxByArea (findContours (maskOf img)))).w ∧
    0 < (boundingRect (maxByArea (findContours (maskOf img)))).h ∧
    (boundingRect (maxByArea (findContours (maskOf img)))).x +
      (boundingRect (maxByArea (findContours (maskOf img)))).w ≤ img.width ∧
    (boundingRect (maxByArea (findContours (maskOf img)))).y +
      (boundingRect (maxByArea (findContours (maskOf img)))).h ≤ img.height ∧
    (crop_panorama img).height =
      (boundingRect (maxByArea (findContours (maskOf img)))).h ∧
    (crop_panorama img).width =
      (boundingRect (maxByArea (findContours (maskOf img)))).w := by
  have hCmem : maxByArea (findContours (maskOf img)) ∈
      components (cells (maskOf img)) := maxByArea_mem _ hc
  have hCne : maxByArea (findContours (maskOf img)) ≠ [] :=
    components_ne_nil _ _ hCmem
  obtain ⟨p0, ps, hCeq⟩ :
      ∃ p0 ps, maxByArea (findContours (maskOf img)) = p0 :: ps := by
    cases hC : maxByArea (findContours (maskOf img)) with
    | nil => exact absurd hC hCne
    | cons a b => exact ⟨a, b, rfl⟩
  have hbound := maxByArea_contour_bound img hc
  rw [hCeq] at hbound
  have hbr := boundingRect_spec p0 ps img.height img.width hbound
  rw [← hCeq] at hbr
  obtain ⟨hw, hh, hxw, hyh⟩ := hbr
  have hcrop : crop_panorama img =
      subImg img (boundingRect (maxByArea (findContours (maskOf img)))) := by
    unfold crop_panorama
    rw [if_neg hc]
  refine ⟨hw, hh, hxw, hyh, ?_, ?_⟩
  · rw [hcrop]
    exact subImg_height img _ hyh
  · rw [hcrop]
    exact subImg_width img hwf _ hyh hxw hh

/-- C3: when a contour is found, the cropper selects a contour of the list
with maximal area and returns exactly the sub-image of its bounding
rectangle: every output pixel equals the input pixel at the rectangle's
offset. -/
theorem crop_selects_largest (img : Img) (hc : findContours (maskOf img) ≠ []) :
    maxByArea (findContours (maskOf img)) ∈ findContours (maskOf img) ∧
    (∀ c ∈ findContours (maskOf img),
      contourArea c ≤ contourArea (maxByArea (findContours (maskOf img)))) ∧
    crop_panorama img =
      subImg img (boundingRect (maxByArea (findContours (maskOf img)))) ∧
    ∀ i j, i < (boundingRect (maxByArea (findContours (maskOf img)))).h →
      j < (boundingRect (maxByArea (findContours (maskOf img)))).w →
      pxAt (crop_panorama img) i j =
        pxAt img ((boundingRect (maxByArea (findContours (maskOf img)))).y + i)
          ((boundingRect (maxByArea (findContours (maskOf img)))).x + j) := by
  have hCmem : maxByArea (findContours (maskOf img)) ∈
      components (cells (maskOf img)) := maxByArea_mem _ hc
  have hCne : maxByArea (findContours (maskOf img)) ≠ [] :=
    components_ne_nil _ _ hCmem
  obtain ⟨p0, ps, hCeq⟩ :
      ∃ p0 ps, maxByArea (findContours (maskOf img)) = p0 :: ps := by
    cases hC : maxByArea (findContours (maskOf img)) with
    | nil => exact absurd hC hCne
    | cons a b => exact ⟨a, b, rfl⟩
  have hbound := maxByArea_contour_bound img hc
  rw [hCeq] at hbound
  have hbr := boundingRect_spec p0 ps img.height img.width hbound
  rw [← hCeq] at hbr
  have hcrop : crop_panorama img =
      subImg img (boundingRect (maxByArea (findContours (maskOf img)))) := by
    unfold crop_panorama
    rw [if_neg hc]
  refine ⟨maxByArea_mem _ hc, maxByArea_is_max _, hcrop, ?_⟩
  intro i j hi hj
  rw [hcrop]
  exact subImg_px img _ i j hi hj hbr.2.2.2

/-! ### The border cropper on concrete images -/

/-- Grayscale of the uniform test image. -/
theorem toGray_imgU7 : toGray imgU7 = [[7, 7], [7, 7]] := by decide

/-- The uniform image's mask is all-foreground: one contour, the whole grid. -/
theorem contours_imgU7 :
    findContours (maskOf imgU7) = [[(0, 0), (0, 1), (1, 0), (1, 1)]] := by
  rw [maskOf_def, toGray_imgU7]
  rw [show histOf [[7, 7], [7, 7]] = (List.replicate 256 0).set 7 4 from by decide]
  rw [show otsuThresh ((List.replicate 256 0).set 7 4) = 0 from by decide]
  decide

/-- The uniform test image has a contour. -/
theorem contours_imgU7_ne : findContours (maskOf imgU7) ≠ [] := by
  rw [contours_imgU7]
  simp

/-- Witness for C2 on the uniform 2x2 image. -/
theorem crop_rect_within_bounds_witness :
    0 < (boundingRect (maxByArea (findContours (maskOf imgU7)))).w ∧
    0 < (boundingRect (maxByArea (findContours (maskOf imgU7)))).h ∧
    (boundingRect (maxByArea (findContours (maskOf imgU7)))).x +
      (boundingRect (maxByArea (findContours (maskOf imgU7)))).w ≤ imgU7.width ∧
    (boundingRect (maxByArea (findContours (maskOf imgU7)))).y +
      (boundingRect (maxByArea (findContours (maskOf imgU7)))).h ≤ imgU7.height ∧
    (crop_panorama imgU7).height =
      (boundingRect (maxByArea (findContours (maskOf imgU7)))).h ∧
    (crop_panorama imgU7).width =
      (boundingRect (maxByArea (findContours (maskOf imgU7)))).w :=
  crop_rect_within_bounds imgU7 (by decide) contours_imgU7_ne

/-- Witness for C3 on the uniform 2x2 image: the selected contour is in the
list and the top-left output pixel is the input pixel at the rectangle's
offset. -/
theorem crop_selects_largest_witness :
    maxByArea (findContours (maskOf imgU7)) ∈ findContours (maskOf imgU7) ∧
    crop_panorama imgU7 =
      subImg imgU7 (boundingRect (maxByArea (findContours (maskOf imgU7)))) ∧
    pxAt (crop_panorama imgU7) 0 0 =
      pxAt imgU7 ((boundingRect (maxByArea (findContours (maskOf imgU7)))).y + 0)
        ((boundingRect (maxByArea (findContours (maskOf imgU7)))).x + 0) :=
  ⟨(crop_selects_largest imgU7 contours_imgU7_ne).1,
   (crop_selects_largest imgU7 contours_imgU7_ne).2.2.1,
   (crop_selects_largest imgU7 contours_imgU7_ne).2.2.2 0 0
     (by rw [contours_imgU7]; decide) (by rw [contours_imgU7]; decide)⟩

/-- Grayscale of the bimodal test image. -/
theorem toGray_imgBimodal : toGray imgBimodal = grayBimodal := by decide

/-- Otsu picks threshold 1 on the bimodal image, so its dark (but non-zero)
half is zeroed; the single contour is the bright half. -/
theorem contours_imgBimodal :
    findContours (maskOf imgBimodal) = [contourBimodal] := by
  rw [maskOf_def, toGray_imgBimodal]
  rw [show histOf grayBimodal = histBimodal from by decide]
  rw [show otsuThresh histBimodal = 1 from by decide]
  rw [show threshBin 1 grayBimodal = maskBimodal from by decide]
  rw [show morphClose maskBimodal = maskBimodal from by decide]
  decide

/-- The cropper shrinks the bimodal image to its bright 5x5 half. -/
theorem crop_imgBimodal : crop_panorama imgBimodal = imgWhite5 := by
  unfold crop_panorama
  rw [contours_imgBimodal, if_neg (by simp)]
  rw [show boundingRect (maxByArea [contourBimodal]) = ⟨5, 0, 5, 5⟩ from by decide]
  decide

/-- C5 counterexample: `imgBimodal` has no zero pixel at all (so certainly
no black border), yet the cropper does not return the whole image — its
output is strictly narrower. -/
theorem crop_shrinks_fully_nonzero_cex :
    fullyNonZero imgBimodal = true ∧
    crop_panorama imgBimodal ≠ imgBimodal ∧
    (crop_panorama imgBimodal).width < imgBimodal.width := by
  refine ⟨by decide, ?_, ?_⟩
  · rw [crop_imgBimodal]
    decide
  · rw [crop_imgBimodal]
    decide

/-! ### A full-grid mask yields a single full contour -/

/-- Stepping towards `t` shrinks the distance by one. -/
theorem stepToward_dist_le (t a k : Nat) (h : Nat.dist a t ≤ k + 1) :
    Nat.dist (stepToward t a) t ≤ k := by
  simp only [stepToward, Nat.dist] at *
  split_ifs <;> omega

/-- Stepping moves by at most one. -/
theorem stepToward_adj (t a : Nat) : Nat.dist (stepToward t a) a ≤ 1 := by
  simp only [stepToward, Nat.dist]
  split_ifs <;> omega

/-- Stepping between two in-bounds values stays in bounds. -/
theorem stepToward_lt (t a B : Nat) (ht : t < B) (ha : a < B) :
    stepToward t a < B := by
  simp only [stepToward]
  split_ifs <;> omega

/-- A fixed point of stepping is already at the target. -/
theorem stepToward_fix (t a : Nat) (h : stepToward t a = a) : a = t := by
  simp only [stepToward] at h
  split_ifs at h <;> omega

/-- If the whole grid consists of cells and the start set contains the
Chebyshev ball of radius `k` around an in-grid seed, then `n` growth steps
cover the ball of radius `k + n`: a full grid is 8-connected. -/
theorem growN_covers (cs : List Pt) (H W : Nat)
    (hcs : ∀ y x, y < H → x < W → (y, x) ∈ cs)
    (seed : Pt) (hsH : seed.1 < H) (hsW : seed.2 < W) :
    ∀ (n k : Nat) (s : List Pt),
      (∀ p : Pt, p.1 < H → p.2 < W →
        Nat.dist p.1 seed.1 ≤ k → Nat.dist p.2 seed.2 ≤ k → p ∈ s) →
      ∀ p : Pt, p.1 < H → p.2 < W →
        Nat.dist p.1 seed.1 ≤ k + n → Nat.dist p.2 seed.2 ≤ k + n →
        p ∈ growN cs n s := by
  intro n
  induction n with
  | zero =>
    intro k s hs p h1 h2 h3 h4
    exact hs p h1 h2 (by omega) (by omega)
  | succ n ih =>
    intro k s hs p h1 h2 h3 h4
    show p ∈ growN cs n (grow cs s)
    refine ih (k + 1) (grow cs s) ?_ p h1 h2 (by omega) (by omega)
    intro q hq1 hq2 hd1 hd2
    by_cases hqs : q ∈ s
    · exact subset_grow cs s hqs
    · have hqseed : q ≠ seed := by
        intro he
        refine hqs (hs q hq1 hq2 ?_ ?_)
        · rw [he]
          simp [Nat.dist]
        · rw [he]
          simp [Nat.dist]
      have hrs : (stepToward seed.1 q.1, stepToward seed.2 q.2) ∈ s := by
        refine hs _ (stepToward_lt _ _ _ hsH hq1) (stepToward_lt _ _ _ hsW hq2) ?_ ?_
        · exact stepToward_dist_le _ _ _ hd1
        · exact stepToward_dist_le _ _ _ hd2
      have hne : ((stepToward seed.1 q.1, stepToward seed.2 q.2) : Pt) ≠ q := by
        intro he
        obtain ⟨he1, he2⟩ := Prod.ext_iff.mp he
        exact hqseed (Prod.ext (stepToward_fix _ _ he1) (stepToward_fix _ _ he2))
      have hadj : adj8 (stepToward seed.1 q.1, stepToward seed.2 q.2) q = true := by
        unfold adj8
        rw [Bool.and_eq_true, Bool.and_eq_true]
        exact ⟨⟨decide_eq_true hne, decide_eq_true (stepToward_adj _ _)⟩,
          decide_eq_true (stepToward_adj _ _)⟩
      unfold grow
      refine List.mem_append_right _ (List.mem_filter.mpr ⟨hcs q.1 q.2 hq1 hq2, ?_⟩)
      rw [Bool.and_eq_true]
      exact ⟨decide_eq_true hqs,
        List.any_eq_true.mpr ⟨_, hrs, hadj⟩⟩

/-- Over a full grid of cells, the component of any seed covers the whole
grid, given enough fuel. -/
theorem compOf_covers (cs : List Pt) (H W : Nat)
    (hcs : ∀ y x, y < H → x < W → (y, x) ∈ cs)
    (seed : Pt) (hsH : seed.1 < H) (hsW : seed.2 < W)
    (hfH : H ≤ cs.length + 1) (hfW : W ≤ cs.length + 1) :
    ∀ p : Pt, p.1 < H → p.2 < W → p ∈ compOf cs seed := by
  intro p h1 h2
  unfold compOf
  refine growN_covers cs H W hcs seed hsH hsW cs.length 0 [seed] ?_ p h1 h2 ?_ ?_
  · intro q hq1 hq2 hd1 hd2
    have e1 : q.1 = seed.1 := by
      simp [Nat.dist] at hd1
      omega
    have e2 : q.2 = seed.2 := by
      simp [Nat.dist] at hd2
      omega
    rw [Prod.ext e1 e2]
    exact List.mem_singleton.mpr rfl
  · simp only [Nat.dist]
    omega
  · simp only [Nat.dist]
    omega

/-- An all-foreground mask has a cell at every grid position. -/
theorem cells_all_on (m : List (List Nat))
    (hall : ∀ y x, y < m.length → x < (m.headD []).length → mAt m y x ≠ 0) :
    ∀ y x, y < m.length → x < (m.headD []).length → (y, x) ∈ cells m :=
  fun y x hy hx => cells_mem hy hx (hall y x hy hx)

/-- An all-foreground mask has exactly one cell per grid position. -/
theorem cells_full_length (m : List (List Nat))
    (hall : ∀ y x, y < m.length → x < (m.headD []).length → mAt m y x ≠ 0) :
    (cells m).length = m.length * (m.headD []).length := by
  unfold cells
  rw [List.length_flatMap]
  rw [List.map_congr_left (g := fun _ => (m.headD []).length) ?_]
  · rw [List.map_const', List.length_range]
    simp [List.sum_replicate]
  · intro y hy
    simp only [Function.comp_apply]
    rw [List.length_map,
      List.filter_eq_self.mpr fun x hx =>
        decide_eq_true (hall y x (List.mem_range.mp hy) (List.mem_range.mp hx)),
      List.length_range]

/-- Scanning cells already covered by accumulated components adds nothing. -/
theorem componentsGo_absorbed (cs : List Pt) (todo : List Pt)
    (acc : List (List Pt)) (h : ∀ c ∈ todo, ∃ comp ∈ acc, c ∈ comp) :
    componentsGo cs todo acc = acc := by
  induction todo with
  | nil => rfl
  | cons c rest ih =>
    obtain ⟨comp, hcomp, hc⟩ := h c (List.mem_cons_self c rest)
    unfold componentsGo
    rw [if_pos (List.any_eq_true.mpr ⟨comp, hcomp, decide_eq_true hc⟩)]
    exact ih fun c hc => h c (List.mem_cons_of_mem _ hc)

/-- C5 (amended): if the cropper's thresholded-and-closed mask is foreground
at every pixel of a non-empty well-formed image, the mask has a single
contour covering the whole grid, its bounding rectangle is the full image,
and the crop returns the image unchanged — in particular the cropper is
idempotent on such images. -/
theorem crop_identity_of_mask_all_on (img : Img) (hwf : img.wf = true)
    (hH : 0 < img.height) (hW : 0 < img.width) (hmask : maskAllOn img) :
    crop_panorama img = img := by
  have hmL := maskOf_length img
  have hmW := maskOf_width img hH
  have hall : ∀ y x, y < (maskOf img).length →
      x < ((maskOf img).headD []).length → mAt (maskOf img) y x ≠ 0 := by
    intro y x hy hx
    exact hmask y (by omega) x (by omega)
  have hcells : ∀ y x, y < img.height → x < img.width →
      (y, x) ∈ cells (maskOf img) := by
    intro y x hy hx
    exact cells_all_on (maskOf img) hall y x (by omega) (by omega)
  have hlen : (cells (maskOf img)).length = img.height * img.width := by
    rw [cells_full_length (maskOf img) hall, hmL, hmW]
  have hne : cells (maskOf img) ≠ [] := by
    intro h0
    have h00 := hcells 0 0 hH hW
    rw [h0] at h00
    exact List.not_mem_nil _ h00
  obtain ⟨c0, rest, hcons⟩ : ∃ c0 rest, cells (maskOf img) = c0 :: rest := by
    cases hc : cells (maskOf img) with
    | nil => exact absurd hc hne
    | cons a b => exact ⟨a, b, rfl⟩
  have hc0 : c0 ∈ cells (maskOf img) := by
    rw [hcons]
    exact List.mem_cons_self _ _
  have hc0b := mem_cells hc0
  have hfH : img.height ≤ (cells (maskOf img)).length + 1 := by
    rw [hlen]
    have := Nat.le_mul_of_pos_right img.height hW
    omega
  have hfW : img.width ≤ (cells (maskOf img)).length + 1 := by
    rw [hlen]
    have := Nat.le_mul_of_pos_left img.width hH
    omega
  have hcover : ∀ p : Pt, p.1 < img.height → p.2 < img.width →
      p ∈ compOf (cells (maskOf img)) c0 := by
    refine compOf_covers _ img.height img.width hcells c0 ?_ ?_ hfH hfW
    · omega
    · omega
  have hsub : ∀ p ∈ compOf (cells (maskOf img)) c0,
      p.1 < img.height ∧ p.2 < img.width := by
    intro p hp
    cases compOf_subset _ c0 p hp with
    | inl h =>
      rw [h]
      exact ⟨by omega, by omega⟩
    | inr h =>
      have hb := mem_cells h
      exact ⟨by omega, by omega⟩
  have hcomps : components (cells (maskOf img)) =
      [compOf (cells (maskOf img)) c0] := by
    unfold components
    nth_rewrite 2 [hcons]
    have hstep : componentsGo (cells (maskOf img)) (c0 :: rest) [] =
        componentsGo (cells (maskOf img)) rest [compOf (cells (maskOf img)) c0] := by
      conv_lhs => rw [componentsGo]
      rw [if_neg (by simp)]
      rw [List.nil_append]
    rw [hstep]
    refine componentsGo_absorbed _ rest _ fun c hc =>
      ⟨compOf (cells (maskOf img)) c0, List.mem_singleton.mpr rfl, ?_⟩
    have hcmem : c ∈ cells (maskOf img) := by
      rw [hcons]
      exact List.mem_cons_of_mem _ hc
    have hb := mem_cells hcmem
    exact hcover c (by omega) (by omega)
  have hc0C : c0 ∈ compOf (cells (maskOf img)) c0 := seed_mem_compOf _ _
  obtain ⟨p0, ps, hCeq⟩ : ∃ p0 ps, compOf (cells (maskOf img)) c0 = p0 :: ps := by
    cases hC : compOf (cells (maskOf img)) c0 with
    | nil =>
      rw [hC] at hc0C
      cases hc0C
    | cons a b => exact ⟨a, b, rfl⟩
  have hmem00 : ((0, 0) : Pt) ∈ p0 :: ps := hCeq ▸ hcover (0, 0) hH hW
  have hmemW : ((0, img.width - 1) : Pt) ∈ p0 :: ps :=
    hCeq ▸ hcover (0, img.width - 1) hH (by omega)
  have hmemH : ((img.height - 1, 0) : Pt) ∈ p0 :: ps :=
    hCeq ▸ hcover (img.height - 1, 0) (by omega) hW
  have hbnd : ∀ q ∈ p0 :: ps, q.1 < img.height ∧ q.2 < img.width := by
    intro q hq
    exact hsub q (hCeq ▸ hq)
  have hx0 : listMin p0.2 (ps.map Prod.snd) = 0 := by
    refine Nat.le_antisymm ?_ (Nat.zero_le _)
    cases List.mem_cons.mp hmem00 with
    | inl h =>
      have h2 : p0.2 = 0 := by rw [← h]
      rw [← h2]
      exact listMin_le_init _ _
    | inr h => exact listMin_le_mem _ _ 0 (List.mem_map.mpr ⟨(0, 0), h, rfl⟩)
  have hy0 : listMin p0.1 (ps.map Prod.fst) = 0 := by
    refine Nat.le_antisymm ?_ (Nat.zero_le _)
    cases List.mem_cons.mp hmem00 with
    | inl h =>
      have h1 : p0.1 = 0 := by rw [← h]
      rw [← h1]
      exact listMin_le_init _ _
    | inr h => exact listMin_le_mem _ _ 0 (List.mem_map.mpr ⟨(0, 0), h, rfl⟩)
  have hxM : listMax p0.2 (ps.map Prod.snd) = img.width - 1 := by
    refine Nat.le_antisymm ?_ ?_
    · cases listMax_choice p0.2 (ps.map Prod.snd) with
      | inl h =>
        rw [h]
        have := (hbnd p0 (List.mem_cons_self p0 ps)).2
        omega
      | inr h =>
        obtain ⟨q, hq, he⟩ := List.mem_map.mp h
        rw [← he]
        have := (hbnd q (List.mem_cons_of_mem _ hq)).2
        omega
    · cases List.mem_cons.mp hmemW with
      | inl h =>
        have h2 : p0.2 = img.width - 1 := by rw [← h]
        rw [← h2]
        exact le_listMax_init _ _
      | inr h =>
        exact le_listMax_mem _ _ _ (List.mem_map.mpr ⟨(0, img.width - 1), h, rfl⟩)
  have hyM : listMax p0.1 (ps.map Prod.fst) = img.height - 1 := by
    refine Nat.le_antisymm ?_ ?_
    · cases listMax_choice p0.1 (ps.map Prod.fst) with
      | inl h =>
        rw [h]
        have := (hbnd p0 (List.mem_cons_self p0 ps)).1
        omega
      | inr h =>
        obtain ⟨q, hq, he⟩ := List.mem_map.mp h
        rw [← he]
        have := (hbnd q (List.mem_cons_of_mem _ hq)).1
        omega
    · cases List.mem_cons.mp hmemH with
      | inl h =>
        have h1 : p0.1 = img.height - 1 := by rw [← h]
        rw [← h1]
        exact le_listMax_init _ _
      | inr h =>
        exact le_listMax_mem _ _ _ (List.mem_map.mpr ⟨(img.height - 1, 0), h, rfl⟩)
  have hbr : boundingRect (compOf (cells (maskOf img)) c0) =
      ⟨0, 0, img.width, img.height⟩ := by
    rw [hCeq]
    show Rect.mk (listMin p0.2 (ps.map Prod.snd)) (listMin p0.1 (ps.map Prod.fst))
      (listMax p0.2 (ps.map Prod.snd) + 1 - listMin p0.2 (ps.map Prod.snd))
      (listMax p0.1 (ps.map Prod.fst) + 1 - listMin p0.1 (ps.map Prod.fst)) =
      Rect.mk 0 0 img.width img.height
    rw [hx0, hy0, hxM, hyM]
    have e1 : img.width - 1 + 1 - 0 = img.width := by omega
    have e2 : img.height - 1 + 1 - 0 = img.height := by omega
    rw [e1, e2]
  have hsubimg : subImg img ⟨0, 0, img.width, img.height⟩ = img := by
    show Img.mk (((img.rows.drop 0).take img.height).map
      fun row => (row.drop 0).take img.width) = img
    rw [List.drop_zero]
    rw [show img.rows.take img.height = img.rows from List.take_length img.rows]
    rw [List.map_congr_left (g := id) ?_]
    · rw [List.map_id]
    · intro row hrow
      rw [List.drop_zero]
      have hlen2 : row.length = img.width := by
        unfold Img.wf at hwf
        exact decide_eq_true_eq.mp (List.all_eq_true.mp hwf row hrow)
      show row.take img.width = row
      rw [← hlen2]
      exact List.take_length row
  unfold crop_panorama
  rw [show findContours (maskOf img) = [compOf (cells (maskOf img)) c0] from hcomps]
  rw [if_neg (by simp)]
  show subImg img (boundingRect (maxByArea [compOf (cells (maskOf img)) c0])) = img
  rw [show maxByArea [compOf (cells (maskOf img)) c0] =
    compOf (cells (maskOf img)) c0 from rfl]
  rw [hbr]
  exact hsubimg

/-- The uniform image's mask is all-foreground. -/
theorem mask_imgU7 : maskOf imgU7 = [[255, 255], [255, 255]] := by
  rw [maskOf_def, toGray_imgU7]
  rw [show histOf [[7, 7], [7, 7]] = (List.replicate 256 0).set 7 4 from by decide]
  rw [show otsuThresh ((List.replicate 256 0).set 7 4) = 0 from by decide]
  decide

/-- The uniform image satisfies the all-foreground mask hypothesis. -/
theorem maskAllOn_imgU7 : maskAllOn imgU7 := by
  unfold maskAllOn
  rw [mask_imgU7]
  decide

/-- Witness for the amended C5 on the uniform 2x2 image. -/
theorem crop_identity_of_mask_all_on_witness :
    maskAllOn imgU7 ∧ crop_panorama imgU7 = imgU7 :=
  ⟨maskAllOn_imgU7,
   crop_identity_of_mask_all_on imgU7 (by decide) (by decide) (by decide)
     maskAllOn_imgU7⟩

end ImageStitch
